import Mathlib

/-!
Verification development for the core of pig_dataprocess_auto.py: the
per-image signal-to-landmark pipeline.  The stages embedded here are the
profile builder (gray.mean over rows, line 60), the region segmenter
(region_boundaries, lines 76-83), the landmark locator (highest_peaks,
lines 86-104), the calibration mapper (converted_y, line 110), and the
per-image control flow around them (the skip at lines 71-73).

Conventions of the embedding:
* the grayscale image is a structure with height, width and a total pixel
  lookup function (row, column) into the natural numbers;
* Python integers are embedded as Int, with Python floor division
  embedded as Int.fdiv;
* numpy floating point values are embedded as exact rationals; the NaN
  produced by numpy when averaging an empty slice is embedded as none in
  an Option-valued profile entry;
* the scipy find_peaks routine is an external library primitive and is
  passed in as a function parameter of the per-image pipeline;
* the sentinel value min_x_local = -1 of the landmark scan is embedded
  as none in an Option-valued accumulator component.
-/

namespace Pig

/-- Intensity matrix: height H (rows), width W (columns), and the pixel
intensity at (row, column).  Models the numpy array gray. -/
structure Mat where
  H : ℕ
  W : ℕ
  pix : ℕ → ℕ → ℕ

/-- Mean intensity of column x: sum over the H rows divided by H.  When
H = 0 numpy emits a warning and yields NaN, embedded as none. -/
def colMean (g : Mat) (x : ℕ) : Option ℚ :=
  if g.H = 0 then none
  else some (((List.range g.H).map (fun r => (g.pix r x : ℚ))).sum / (g.H : ℚ))

/-- Profile builder, line 60: signal_profile = gray.mean(axis=0), one
entry per column. -/
def signal_profile (g : Mat) : List (Option ℚ) :=
  (List.range g.W).map (colMean g)

/-- Python floor division a // b on integers. -/
def pydiv (a b : ℤ) : ℤ := Int.fdiv a b

/-- Line 77: left_bound = max(0, peaks[0] - (peaks[1] - peaks[0]) // 2). -/
def left_bound (peaks : List ℤ) : ℤ :=
  max 0 (peaks.getD 0 0 - pydiv (peaks.getD 1 0 - peaks.getD 0 0) 2)

/-- Lines 79-81: the interior midpoints (peaks[i] + peaks[i+1]) // 2 for
i in range(len(peaks) - 1). -/
def midpoints_list (peaks : List ℤ) : List ℤ :=
  (List.range (peaks.length - 1)).map
    (fun i => pydiv (peaks.getD i 0 + peaks.getD (i + 1) 0) 2)

/-- Line 82: right_bound = min(img_width,
peaks[-1] + (peaks[-1] - peaks[-2]) // 2). -/
def right_bound (peaks : List ℤ) (img_width : ℤ) : ℤ :=
  min img_width
    (peaks.getD (peaks.length - 1) 0 +
      pydiv (peaks.getD (peaks.length - 1) 0 - peaks.getD (peaks.length - 2) 0) 2)

/-- Lines 76-83: the boundary list, built as left_bound, then the
interior midpoints, then right_bound. -/
def region_boundaries (peaks : List ℤ) (img_width : ℤ) : List ℤ :=
  left_bound peaks :: midpoints_list peaks ++ [right_bound peaks img_width]

/-- The regions cut out of a boundary list: consecutive pairs
(boundaries[i], boundaries[i+1]), each read as the half-open column
interval [start, end). -/
def regionsOf {α : Type} : List α → List (α × α)
  | a :: b :: rest => (a, b) :: regionsOf (b :: rest)
  | _ => []

/-- Line 87: intensity_threshold = 0. -/
def intensity_threshold : ℕ := 0

/-- Scan of one column from row r over k remaining rows, returning the
first row whose intensity strictly exceeds thr.  This is the topmost
bright row, i.e. np.min(np.where(col > intensity_threshold)[0]) of
lines 96-98, with none when np.where is empty. -/
def scanCol (g : Mat) (thr x : ℕ) : ℕ → ℕ → Option ℕ
  | _, 0 => none
  | r, k + 1 => if thr < g.pix r x then some r else scanCol g thr x (r + 1) k

/-- Topmost row of column x with intensity strictly above thr. -/
def colTopmost (g : Mat) (thr x : ℕ) : Option ℕ :=
  scanCol g thr x 0 g.H

/-- One iteration of the loop of lines 94-101: state (min_y, min_x_local)
updated by column x0 + xl; min_x_local = -1 is embedded as none. -/
def scanStep (g : Mat) (thr x0 : ℕ) (st : ℕ × Option ℕ) (xl : ℕ) : ℕ × Option ℕ :=
  match colTopmost g thr (x0 + xl) with
  | none => st
  | some y => if y < st.1 then (y, some xl) else st

/-- The loop of lines 94-101 over the first n local columns, starting from
(min_y, min_x_local) = (img_height, -1). -/
def scanFold (g : Mat) (thr x0 n : ℕ) : ℕ × Option ℕ :=
  (List.range n).foldl (scanStep g thr x0) (g.H, none)

/-- Lines 88-104 for a single region [x0, x1): scan the x1 - x0 columns
of the subregion and keep the landmark when min_x_local >= 0 and
min_y < img_height. -/
def highest_peak_in (g : Mat) (thr x0 x1 : ℕ) : Option (ℕ × ℕ) :=
  match scanFold g thr x0 (x1 - x0) with
  | (min_y, some min_x_local) =>
      if min_y < g.H then some (x0 + min_x_local, min_y) else none
  | (_, none) => none

/-- The landmark list accumulated over a region list, skipping regions
that produce none (lines 102-104 append only found landmarks). -/
def landmarks_of (g : Mat) (thr : ℕ) (regs : List (ℕ × ℕ)) : List (ℕ × ℕ) :=
  regs.filterMap (fun p => highest_peak_in g thr p.1 p.2)

/-- Lines 86-104: highest_peaks, one optional landmark per consecutive
boundary pair. -/
def highest_peaks (g : Mat) (thr : ℕ) (bnds : List ℕ) : List (ℕ × ℕ) :=
  landmarks_of g thr (regionsOf bnds)

/-- Line 110: converted_y = (1 - r / img_height) * (y_top - y_bottom)
+ y_bottom, for one landmark row r. -/
def converted_y (r img_height y_bottom y_top : ℚ) : ℚ :=
  (1 - r / img_height) * (y_top - y_bottom) + y_bottom

/-- Outcome of processing one image: either the skip of lines 71-73
(fewer than 2 peaks, no region, landmark or calibration output), or the
landmark list together with its calibrated values. -/
inductive ImageResult
  | skippedFewPeaks : ImageResult
  | output : List (ℕ × ℕ) → List ℚ → ImageResult

/-- Per-image pipeline, lines 60-110.  The external scipy find_peaks
primitive is a parameter; the boundary list, which is nonnegative for the
peak sequences find_peaks produces, is read back as natural numbers for
column indexing. -/
def processImage (findPeaks : List (Option ℚ) → List ℕ) (y_bottom y_top : ℚ)
    (g : Mat) : ImageResult :=
  let peaks := findPeaks (signal_profile g)
  if peaks.length < 2 then ImageResult.skippedFewPeaks
  else
    let bnds := region_boundaries (peaks.map (fun p => (p : ℤ))) (g.W : ℤ)
    let lms := highest_peaks g intensity_threshold (bnds.map Int.toNat)
    ImageResult.output lms (lms.map (fun pt => converted_y (pt.2 : ℚ) (g.H : ℚ) y_bottom y_top))

/-- Batch loop of lines 26-145: each image processed independently. -/
def processAll (findPeaks : List (Option ℚ) → List ℕ) (y_bottom y_top : ℚ)
    (imgs : List Mat) : List ImageResult :=
  imgs.map (processImage findPeaks y_bottom y_top)

/-- Number of regions of the list containing a given column z. -/
def coverCount (regs : List (ℤ × ℤ)) (z : ℤ) : ℕ :=
  regs.countP (fun p => decide (p.1 ≤ z ∧ z < p.2))

/-! Calibration mapper. -/

/-- Degenerate endpoints make converted_y constantly equal to y_bottom. -/
theorem converted_y_const (r img_height y_bottom : ℚ) :
    converted_y r img_height y_bottom y_bottom = y_bottom := by
  unfold converted_y; ring

/-- C3: the calibration mapper computes (1 - r/H) * (y_top - y_bottom)
+ y_bottom; row 0 maps to y_top, row H maps to y_bottom, and with
y_bottom = 0, y_top = 100, H = 1000 the rows 0, 500, 1000 map to 100,
50 and 0. -/
theorem converted_y_spec (H y_bottom y_top : ℚ) (hH : 0 < H) :
    (∀ r : ℚ, converted_y r H y_bottom y_top = (1 - r / H) * (y_top - y_bottom) + y_bottom) ∧
    converted_y 0 H y_bottom y_top = y_top ∧
    converted_y H H y_bottom y_top = y_bottom ∧
    converted_y 0 1000 0 100 = 100 ∧
    converted_y 500 1000 0 100 = 50 ∧
    converted_y 1000 1000 0 100 = 0 := by
  refine ⟨fun r => rfl, ?_, ?_, by norm_num [converted_y], by norm_num [converted_y],
    by norm_num [converted_y]⟩
  · unfold converted_y; rw [zero_div]; ring
  · unfold converted_y; rw [div_self (ne_of_gt hH)]; ring

/-- Witness for converted_y_spec at H = 1000, y_bottom = 0, y_top = 100. -/
theorem converted_y_spec_witness :
    (0 : ℚ) < 1000 ∧
    ((∀ r : ℚ, converted_y r 1000 0 100 = (1 - r / 1000) * (100 - 0) + 0) ∧
      converted_y 0 1000 0 100 = 100 ∧
      converted_y 1000 1000 0 100 = 0 ∧
      converted_y 0 1000 0 100 = 100 ∧
      converted_y 500 1000 0 100 = 50 ∧
      converted_y 1000 1000 0 100 = 0) :=
  ⟨by norm_num, converted_y_spec 1000 0 100 (by norm_num)⟩

/-- C8: the calibration mapper is order-reversing in the row whenever
y_top is at least y_bottom: r1 < r2 implies value at r2 is at most the
value at r1. -/
theorem converted_y_antitone (H y_bottom y_top r1 r2 : ℚ) (hH : 0 < H)
    (hy : y_bottom ≤ y_top) (hr : r1 < r2) :
    converted_y r2 H y_bottom y_top ≤ converted_y r1 H y_bottom y_top := by
  unfold converted_y
  have h1 : r1 / H ≤ r2 / H := (div_le_div_iff_of_pos_right hH).mpr hr.le
  have h2 : (0 : ℚ) ≤ y_top - y_bottom := by linarith
  nlinarith [mul_le_mul_of_nonneg_right (by linarith : 1 - r2 / H ≤ 1 - r1 / H) h2]

/-- Witness for converted_y_antitone at H = 1000, y_bottom = 0,
y_top = 100, r1 = 0, r2 = 500. -/
theorem converted_y_antitone_witness :
    (0 : ℚ) < 1000 ∧ (0 : ℚ) ≤ 100 ∧ (0 : ℚ) < 500 ∧
    converted_y 500 1000 0 100 ≤ converted_y 0 1000 0 100 :=
  ⟨by norm_num, by norm_num, by norm_num,
    converted_y_antitone 1000 0 100 0 500 (by norm_num) (by norm_num) (by norm_num)⟩

/-! Per-image control flow. -/

/-- C4: when fewer than 2 peaks are detected the image's result is the
skip outcome, carrying no region, landmark or calibration output, and in
a batch the results of the other images are exactly what they are when
processed alone. -/
theorem processImage_skip_few_peaks (findPeaks : List (Option ℚ) → List ℕ)
    (y_bottom y_top : ℚ) (g : Mat)
    (h : (findPeaks (signal_profile g)).length < 2) :
    processImage findPeaks y_bottom y_top g = ImageResult.skippedFewPeaks ∧
    ∀ pre post : List Mat,
      processAll findPeaks y_bottom y_top (pre ++ g :: post) =
        processAll findPeaks y_bottom y_top pre ++
          ImageResult.skippedFewPeaks :: processAll findPeaks y_bottom y_top post := by
  have hskip : processImage findPeaks y_bottom y_top g = ImageResult.skippedFewPeaks := by
    unfold processImage
    rw [if_pos h]
  refine ⟨hskip, fun pre post => ?_⟩
  unfold processAll
  rw [List.map_append, List.map_cons, hskip]

/-- Witness for processImage_skip_few_peaks: a detector returning no
peak on a concrete 1 by 1 image. -/
theorem processImage_skip_few_peaks_witness :
    ((fun _ : List (Option ℚ) => ([] : List ℕ)) (signal_profile ⟨1, 1, fun _ _ => 7⟩)).length < 2 ∧
    (processImage (fun _ => []) 0 100 ⟨1, 1, fun _ _ => 7⟩ = ImageResult.skippedFewPeaks ∧
      ∀ pre post : List Mat,
        processAll (fun _ => []) 0 100 (pre ++ ⟨1, 1, fun _ _ => 7⟩ :: post) =
          processAll (fun _ => []) 0 100 pre ++
            ImageResult.skippedFewPeaks :: processAll (fun _ => []) 0 100 post) :=
  ⟨by decide, processImage_skip_few_peaks (fun _ => []) 0 100 ⟨1, 1, fun _ _ => 7⟩ (by decide)⟩

/-! Profile builder on degenerate matrices. -/

/-- C7 counterexample: on a zero-height 3-column matrix the profile
builder returns a 3-entry profile of NaN placeholders, and on a
zero-width matrix it returns the empty profile; in both cases a value is
produced and nothing fails or aborts. -/
theorem signal_profile_no_failure_cex :
    signal_profile ⟨0, 3, fun _ _ => 0⟩ = [none, none, none] ∧
    signal_profile ⟨4, 0, fun _ _ => 0⟩ = [] := by
  constructor <;> rfl

/-- C7 amended: the profile builder never fails; it always returns a
profile of length W, which for a zero-height matrix consists of W
undefined (NaN) entries and for a zero-width matrix is empty, and
processing continues. -/
theorem signal_profile_total (g : Mat) :
    (signal_profile g).length = g.W ∧
    (g.H = 0 → signal_profile g = List.replicate g.W none) ∧
    (g.W = 0 → signal_profile g = []) := by
  refine ⟨by simp [signal_profile], fun h0 => ?_, fun hw => ?_⟩
  · refine List.eq_replicate_iff.mpr ⟨by simp [signal_profile], fun b hb => ?_⟩
    rcases List.mem_map.mp hb with ⟨x, _, rfl⟩
    simp [colMean, h0]
  · simp [signal_profile, hw]

/-- Witness for signal_profile_total on zero-height and zero-width
matrices. -/
theorem signal_profile_total_witness :
    signal_profile ⟨0, 3, fun _ _ => 0⟩ = List.replicate 3 none ∧
    signal_profile ⟨4, 0, fun _ _ => 0⟩ = [] :=
  ⟨(signal_profile_total ⟨0, 3, fun _ _ => 0⟩).2.1 rfl,
    (signal_profile_total ⟨4, 0, fun _ _ => 0⟩).2.2 rfl⟩

/-! Landmark locator: characterization of the column scan. -/

/-- A result of the single-column scan is a bright row inside the scanned
window, and every earlier row in the window is not bright. -/
theorem scanCol_eq_some (g : Mat) (thr x : ℕ) :
    ∀ k r y, scanCol g thr x r k = some y →
      r ≤ y ∧ y < r + k ∧ thr < g.pix y x ∧
        ∀ r', r ≤ r' → r' < y → g.pix r' x ≤ thr := by
  intro k
  induction k with
  | zero => intro r y h; simp [scanCol] at h
  | succ k ih =>
    intro r y h
    simp only [scanCol] at h
    by_cases hb : thr < g.pix r x
    · rw [if_pos hb] at h
      obtain rfl : r = y := Option.some.inj h
      exact ⟨le_refl r, by omega, hb, fun r' h1 h2 => absurd h2 (Nat.not_lt.mpr h1)⟩
    · rw [if_neg hb] at h
      obtain ⟨h1, h2, h3, h4⟩ := ih (r + 1) y h
      refine ⟨by omega, by omega, h3, fun r' hr1 hr2 => ?_⟩
      rcases Nat.eq_or_lt_of_le hr1 with he | hl
      · exact he ▸ Nat.le_of_not_lt hb
      · exact h4 r' hl hr2

/-- When the single-column scan finds nothing, no row of the scanned
window is bright. -/
theorem scanCol_eq_none (g : Mat) (thr x : ℕ) :
    ∀ k r, scanCol g thr x r k = none →
      ∀ r', r ≤ r' → r' < r + k → g.pix r' x ≤ thr := by
  intro k
  induction k with
  | zero => intro r _ r' h1 h2; exact absurd h2 (by omega)
  | succ k ih =>
    intro r h r' h1 h2
    simp only [scanCol] at h
    by_cases hb : thr < g.pix r x
    · rw [if_pos hb] at h; cases h
    · rw [if_neg hb] at h
      rcases Nat.eq_or_lt_of_le h1 with he | hl
      · exact he ▸ Nat.le_of_not_lt hb
      · exact ih (r + 1) h r' hl (by omega)

/-- The topmost bright row of a column is inside the image, bright, and
below it only non-bright rows occur. -/
theorem colTopmost_eq_some (g : Mat) (thr x y : ℕ) (h : colTopmost g thr x = some y) :
    y < g.H ∧ thr < g.pix y x ∧ ∀ r', r' < y → g.pix r' x ≤ thr := by
  obtain ⟨_, h2, h3, h4⟩ := scanCol_eq_some g thr x g.H 0 y h
  exact ⟨by omega, h3, fun r' hr' => h4 r' (Nat.zero_le r') hr'⟩

/-- A column whose scan finds nothing has no bright pixel at all. -/
theorem colTopmost_eq_none (g : Mat) (thr x : ℕ) (h : colTopmost g thr x = none) :
    ∀ r, r < g.H → g.pix r x ≤ thr :=
  fun r hr => scanCol_eq_none g thr x g.H 0 h r (Nat.zero_le r) (by omega)

/-- A column containing a bright pixel at row r has a topmost bright row,
and it is at most r. -/
theorem colTopmost_exists (g : Mat) (thr x r : ℕ) (hr : r < g.H) (hb : thr < g.pix r x) :
    ∃ y, colTopmost g thr x = some y ∧ y ≤ r := by
  rcases hcol : colTopmost g thr x with _ | y
  · exact absurd hb (Nat.not_lt.mpr (colTopmost_eq_none g thr x hcol r hr))
  · refine ⟨y, rfl, ?_⟩
    by_contra hlt
    exact absurd hb
      (Nat.not_lt.mpr ((colTopmost_eq_some g thr x y hcol).2.2 r (by omega)))

/-- Invariant of the running-minimum scan after the first n local columns:
the accumulator is the topmost bright row seen so far together with the
first local column attaining it, or the initial (img_height, -1) state
when no scanned column is bright. -/
def ScanInv (g : Mat) (thr x0 n minY : ℕ) (minX : Option ℕ) : Prop :=
  minY ≤ g.H ∧
  (minX = none → minY = g.H ∧ ∀ j, j < n → colTopmost g thr (x0 + j) = none) ∧
  ∀ xl, minX = some xl →
    xl < n ∧ colTopmost g thr (x0 + xl) = some minY ∧
    (∀ j, j < n → ∀ y, colTopmost g thr (x0 + j) = some y → minY ≤ y) ∧
    (∀ j, j < xl → ∀ y, colTopmost g thr (x0 + j) = some y → minY < y)

/-- One scan step preserves the invariant. -/
theorem scanStep_inv (g : Mat) (thr x0 n minY : ℕ) (minX : Option ℕ)
    (h : ScanInv g thr x0 n minY minX) :
    ScanInv g thr x0 (n + 1) (scanStep g thr x0 (minY, minX) n).1
      (scanStep g thr x0 (minY, minX) n).2 := by
  obtain ⟨hle, hnone, hsome⟩ := h
  unfold scanStep
  rcases hcol : colTopmost g thr (x0 + n) with _ | y
  · dsimp only
    refine ⟨hle, fun h2 => ?_, fun xl h2 => ?_⟩
    · obtain ⟨he, hall⟩ := hnone h2
      refine ⟨he, fun j hj => ?_⟩
      rcases Nat.lt_succ_iff_lt_or_eq.mp hj with hj' | rfl
      · exact hall j hj'
      · exact hcol
    · obtain ⟨h1, h2', h3, h4⟩ := hsome xl h2
      refine ⟨by omega, h2', fun j hj y hy => ?_, h4⟩
      rcases Nat.lt_succ_iff_lt_or_eq.mp hj with hj' | rfl
      · exact h3 j hj' y hy
      · rw [hcol] at hy; cases hy
  · have hyfacts := colTopmost_eq_some g thr (x0 + n) y hcol
    have hminOld : ∀ j, j < n → ∀ y', colTopmost g thr (x0 + j) = some y' → minY ≤ y' := by
      rcases minX with _ | oxl
      · intro j hj y' hy'
        rw [(hnone rfl).2 j hj] at hy'; cases hy'
      · exact (hsome oxl rfl).2.2.1
    dsimp only
    by_cases hlt : y < minY
    · rw [if_pos hlt]
      dsimp only
      refine ⟨hyfacts.1.le, fun h2 => Option.noConfusion h2, fun xl h2 => ?_⟩
      obtain rfl : n = xl := Option.some.inj h2
      refine ⟨by omega, hcol, fun j hj y' hy' => ?_, fun j hj y' hy' => ?_⟩
      · rcases Nat.lt_succ_iff_lt_or_eq.mp hj with hj' | rfl
        · exact le_of_lt (lt_of_lt_of_le hlt (hminOld j hj' y' hy'))
        · rw [hcol] at hy'
          obtain rfl : y = y' := Option.some.inj hy'
          exact le_refl y
      · exact lt_of_lt_of_le hlt (hminOld j hj y' hy')
    · rw [if_neg hlt]
      dsimp only
      rcases minX with _ | oxl
      · rw [(hnone rfl).1] at hlt
        exact absurd hyfacts.1 hlt
      · obtain ⟨ho1, ho2, ho3, ho4⟩ := hsome oxl rfl
        refine ⟨hle, fun h2 => Option.noConfusion h2, fun xl h2 => ?_⟩
        obtain rfl : oxl = xl := Option.some.inj h2
        refine ⟨by omega, ho2, fun j hj y' hy' => ?_, ho4⟩
        rcases Nat.lt_succ_iff_lt_or_eq.mp hj with hj' | rfl
        · exact ho3 j hj' y' hy'
        · rw [hcol] at hy'
          obtain rfl : y = y' := Option.some.inj hy'
          exact Nat.le_of_not_lt hlt

/-- Unrolling of the scan fold by one column. -/
theorem scanFold_succ (g : Mat) (thr x0 n : ℕ) :
    scanFold g thr x0 (n + 1) = scanStep g thr x0 (scanFold g thr x0 n) n := by
  unfold scanFold
  rw [List.range_succ, List.foldl_append, List.foldl_cons, List.foldl_nil]

/-- The invariant holds after the full scan of the first n columns. -/
theorem scanFold_inv (g : Mat) (thr x0 : ℕ) :
    ∀ n, ScanInv g thr x0 n (scanFold g thr x0 n).1 (scanFold g thr x0 n).2 := by
  intro n
  induction n with
  | zero =>
    exact ⟨le_refl _, fun _ => ⟨rfl, fun j hj => absurd hj (Nat.not_lt_zero j)⟩,
      fun xl hxl => Option.noConfusion hxl⟩
  | succ n ih =>
    rw [scanFold_succ]
    have h := scanStep_inv g thr x0 n (scanFold g thr x0 n).1 (scanFold g thr x0 n).2 ih
    rwa [Prod.mk.eta] at h

/-- C2: on a region holding some pixel strictly above the threshold, the
landmark locator returns the pair whose row is the smallest row index of
any above-threshold pixel of the region, and whose column is the
first-encountered (leftmost) region column attaining that row: columns
left of it have no above-threshold pixel at that row or above. -/
theorem landmark_locator_topmost (g : Mat) (thr x0 x1 x r : ℕ)
    (_hx1W : x1 ≤ g.W) (hx0 : x0 ≤ x) (hx1 : x < x1) (hrH : r < g.H)
    (hbright : thr < g.pix r x) :
    ∃ c y, highest_peak_in g thr x0 x1 = some (c, y) ∧
      x0 ≤ c ∧ c < x1 ∧ y < g.H ∧ thr < g.pix y c ∧
      (∀ x', x' < x1 → x0 ≤ x' → ∀ r', r' < g.H → thr < g.pix r' x' → y ≤ r') ∧
      (∀ x', x' < c → x0 ≤ x' → ∀ r', r' ≤ y → g.pix r' x' ≤ thr) := by
  obtain ⟨hle, hnone, hsome⟩ := scanFold_inv g thr x0 (x1 - x0)
  obtain ⟨y0, hy0, _⟩ := colTopmost_exists g thr x r hrH hbright
  have hxeq : x0 + (x - x0) = x := by omega
  rcases hmx : (scanFold g thr x0 (x1 - x0)).2 with _ | xl
  · have hall := (hnone hmx).2 (x - x0) (by omega)
    rw [hxeq, hy0] at hall
    cases hall
  · obtain ⟨hxl, hcol, hmin, hstrict⟩ := hsome xl hmx
    have hmyH := colTopmost_eq_some g thr (x0 + xl) _ hcol
    have hsf : scanFold g thr x0 (x1 - x0) =
        ((scanFold g thr x0 (x1 - x0)).1, some xl) := by
      rw [← hmx, Prod.mk.eta]
    have hres : highest_peak_in g thr x0 x1 =
        some (x0 + xl, (scanFold g thr x0 (x1 - x0)).1) := by
      unfold highest_peak_in
      rw [hsf]
      exact if_pos hmyH.1
    refine ⟨x0 + xl, (scanFold g thr x0 (x1 - x0)).1, hres, Nat.le_add_right x0 xl,
      by omega, hmyH.1, hmyH.2.1, ?_, ?_⟩
    · intro x' hx'1 hx'0 r' hr' hb'
      obtain ⟨y', hy', hy'le⟩ := colTopmost_exists g thr x' r' hr' hb'
      have hx'eq : x0 + (x' - x0) = x' := by omega
      rw [← hx'eq] at hy'
      have := hmin (x' - x0) (by omega) y' hy'
      omega
    · intro x' hx'c hx'0 r' hr'y
      by_contra hb'
      have hb'' : thr < g.pix r' x' := Nat.lt_of_not_le (fun hc => hb' hc)
      have hr'H : r' < g.H := by omega
      obtain ⟨y'', hy'', hy''le⟩ := colTopmost_exists g thr x' r' hr'H hb''
      have hx'eq : x0 + (x' - x0) = x' := by omega
      rw [← hx'eq] at hy''
      have := hstrict (x' - x0) (by omega) y'' hy''
      omega

/-- Concrete 3-row, 4-column test image: column 0 is bright from row 2,
columns 1 and 3 are bright from row 1, column 2 is dark. -/
def testMat : Mat :=
  ⟨3, 4, fun r x => ((([[0, 0, 0, 0], [0, 7, 0, 7], [5, 0, 0, 0]] :
    List (List ℕ)).getD r []).getD x 0)⟩

/-- Witness for landmark_locator_topmost on testMat, region [0, 4),
bright pixel at column 1, row 1. -/
theorem landmark_locator_topmost_witness :
    ((4 ≤ testMat.W ∧ 0 ≤ 1 ∧ 1 < 4 ∧ 1 < testMat.H) ∧ 0 < testMat.pix 1 1) ∧
    (∃ c y, highest_peak_in testMat 0 0 4 = some (c, y) ∧
      0 ≤ c ∧ c < 4 ∧ y < testMat.H ∧ 0 < testMat.pix y c ∧
      (∀ x', x' < 4 → 0 ≤ x' → ∀ r', r' < testMat.H → 0 < testMat.pix r' x' → y ≤ r') ∧
      (∀ x', x' < c → 0 ≤ x' → ∀ r', r' ≤ y → testMat.pix r' x' ≤ 0)) :=
  ⟨⟨⟨by decide, by decide, by decide, by decide⟩, by decide⟩,
    landmark_locator_topmost testMat 0 0 4 1 1 (by decide) (by decide) (by decide)
      (by decide) (by decide)⟩

/-- C10: any landmark the locator produces for a region [x0, x1) has its
column inside the region, its row inside the image, and its pixel
strictly above the threshold. -/
theorem landmark_in_bounds (g : Mat) (thr x0 x1 c r : ℕ)
    (h : highest_peak_in g thr x0 x1 = some (c, r)) :
    x0 ≤ c ∧ c < x1 ∧ r < g.H ∧ thr < g.pix r c := by
  obtain ⟨hle, hnone, hsome⟩ := scanFold_inv g thr x0 (x1 - x0)
  rcases hmx : (scanFold g thr x0 (x1 - x0)).2 with _ | xl
  · have hsf : scanFold g thr x0 (x1 - x0) =
        ((scanFold g thr x0 (x1 - x0)).1, none) := by
      rw [← hmx, Prod.mk.eta]
    unfold highest_peak_in at h
    rw [hsf] at h
    cases h
  · obtain ⟨hxl, hcol, hmin, hstrict⟩ := hsome xl hmx
    have hmyH := colTopmost_eq_some g thr (x0 + xl) _ hcol
    have hsf : scanFold g thr x0 (x1 - x0) =
        ((scanFold g thr x0 (x1 - x0)).1, some xl) := by
      rw [← hmx, Prod.mk.eta]
    unfold highest_peak_in at h
    rw [hsf] at h
    have h' : (if (scanFold g thr x0 (x1 - x0)).1 < g.H
        then some (x0 + xl, (scanFold g thr x0 (x1 - x0)).1) else none) = some (c, r) := h
    rw [if_pos hmyH.1] at h'
    have hpair := Option.some.inj h'
    rw [Prod.mk.injEq] at hpair
    obtain ⟨hc, hr⟩ := hpair
    subst hc
    subst hr
    exact ⟨Nat.le_add_right x0 xl, by omega, hmyH.1, hmyH.2.1⟩

/-- Witness for landmark_in_bounds: the locator on testMat over [0, 4)
returns the landmark (1, 1). -/
theorem landmark_in_bounds_witness :
    highest_peak_in testMat 0 0 4 = some (1, 1) ∧
    (0 ≤ 1 ∧ 1 < 4 ∧ 1 < testMat.H ∧ 0 < testMat.pix 1 1) :=
  ⟨by decide, landmark_in_bounds testMat 0 0 4 1 1 (by decide)⟩

/-- C5: a region with no pixel strictly above the threshold produces no
landmark, and in the landmark list of a region sequence that region's
cycle is simply omitted, leaving the landmarks of the other regions
unchanged. -/
theorem landmark_empty_region_omitted (g : Mat) (thr x0 x1 : ℕ)
    (hemp : ∀ x', x' < x1 → x0 ≤ x' → ∀ r', r' < g.H → g.pix r' x' ≤ thr) :
    highest_peak_in g thr x0 x1 = none ∧
    ∀ pre post : List (ℕ × ℕ),
      landmarks_of g thr (pre ++ (x0, x1) :: post) =
        landmarks_of g thr pre ++ landmarks_of g thr post := by
  obtain ⟨hle, hnone, hsome⟩ := scanFold_inv g thr x0 (x1 - x0)
  have hres : highest_peak_in g thr x0 x1 = none := by
    rcases hmx : (scanFold g thr x0 (x1 - x0)).2 with _ | xl
    · have hsf : scanFold g thr x0 (x1 - x0) =
          ((scanFold g thr x0 (x1 - x0)).1, none) := by
        rw [← hmx, Prod.mk.eta]
      unfold highest_peak_in
      rw [hsf]
    · obtain ⟨hxl, hcol, hmin, hstrict⟩ := hsome xl hmx
      have hmyH := colTopmost_eq_some g thr (x0 + xl) _ hcol
      have hx1pos : x0 < x1 := by omega
      exact absurd hmyH.2.1
        (Nat.not_lt.mpr (hemp (x0 + xl) (by omega) (Nat.le_add_right x0 xl) _ hmyH.1))
  refine ⟨hres, fun pre post => ?_⟩
  unfold landmarks_of
  rw [List.filterMap_append, List.filterMap_cons]
  dsimp only
  rw [hres]

/-- Witness for landmark_empty_region_omitted on testMat, region [2, 3)
(column 2 is entirely dark). -/
theorem landmark_empty_region_omitted_witness :
    (∀ x', x' < 3 → 2 ≤ x' → ∀ r', r' < testMat.H → testMat.pix r' x' ≤ 0) ∧
    (highest_peak_in testMat 0 2 3 = none ∧
      ∀ pre post : List (ℕ × ℕ),
        landmarks_of testMat 0 (pre ++ (2, 3) :: post) =
          landmarks_of testMat 0 pre ++ landmarks_of testMat 0 post) :=
  ⟨by decide, landmark_empty_region_omitted testMat 0 2 3 (by decide)⟩

/-- C9: equal calibration endpoints are not an error: converted_y maps
every row to the constant y_bottom, and the pipeline still runs and
produces its output, with every calibrated value equal to y_bottom. -/
theorem processImage_degenerate_calibration (findPeaks : List (Option ℚ) → List ℕ)
    (g : Mat) (y_bottom : ℚ)
    (h : ¬ (findPeaks (signal_profile g)).length < 2) :
    (∀ r img_height : ℚ, converted_y r img_height y_bottom y_bottom = y_bottom) ∧
    ∃ lms, processImage findPeaks y_bottom y_bottom g =
      ImageResult.output lms (List.replicate lms.length y_bottom) := by
  refine ⟨fun r img_height => converted_y_const r img_height y_bottom,
    ⟨highest_peaks g intensity_threshold
      ((region_boundaries ((findPeaks (signal_profile g)).map (fun p => (p : ℤ)))
        (g.W : ℤ)).map Int.toNat), ?_⟩⟩
  have heq : processImage findPeaks y_bottom y_bottom g =
      ImageResult.output
        (highest_peaks g intensity_threshold
          ((region_boundaries ((findPeaks (signal_profile g)).map (fun p => (p : ℤ)))
            (g.W : ℤ)).map Int.toNat))
        ((highest_peaks g intensity_threshold
          ((region_boundaries ((findPeaks (signal_profile g)).map (fun p => (p : ℤ)))
            (g.W : ℤ)).map Int.toNat)).map
          (fun pt => converted_y (pt.2 : ℚ) (g.H : ℚ) y_bottom y_bottom)) := by
    simp only [processImage]
    rw [if_neg h]
  rw [heq]
  congr 1
  rw [List.map_congr_left
    (fun a _ => converted_y_const (a.2 : ℚ) (g.H : ℚ) y_bottom)]
  induction (highest_peaks g intensity_threshold
      ((region_boundaries ((findPeaks (signal_profile g)).map (fun p => (p : ℤ)))
        (g.W : ℤ)).map Int.toNat)) with
  | nil => rfl
  | cons a l ih => simp [ih, List.replicate_succ]

/-- Witness for processImage_degenerate_calibration: a detector reporting
two peaks on testMat with both endpoints equal to 5. -/
theorem processImage_degenerate_calibration_witness :
    ¬ ((fun _ : List (Option ℚ) => [1, 3]) (signal_profile testMat)).length < 2 ∧
    ((∀ r img_height : ℚ, converted_y r img_height 5 5 = 5) ∧
      ∃ lms, processImage (fun _ => [1, 3]) 5 5 testMat =
        ImageResult.output lms (List.replicate lms.length 5)) :=
  ⟨by decide, processImage_degenerate_calibration (fun _ => [1, 3]) testMat 5 (by decide)⟩

/-! Region segmenter: arithmetic facts about Python floor division. -/

/-- For the positive divisor 2, Python floor division agrees with
Euclidean division. -/
theorem pydiv_two (a : ℤ) : pydiv a 2 = a / 2 :=
  Int.fdiv_eq_ediv a (by norm_num)

/-- Halving is monotone. -/
theorem pydiv2_mono {a b : ℤ} (h : a ≤ b) : pydiv a 2 ≤ pydiv b 2 := by
  rw [pydiv_two, pydiv_two]
  exact Int.ediv_le_ediv (by norm_num) h

/-- Halving preserves nonnegativity. -/
theorem pydiv2_nonneg {a : ℤ} (h : 0 ≤ a) : 0 ≤ pydiv a 2 := by
  rw [pydiv_two]
  exact Int.ediv_nonneg h (by norm_num)

/-- The halved sum of an ordered pair is at least the smaller element. -/
theorem le_pydiv2_add {a b : ℤ} (h : a ≤ b) : a ≤ pydiv (a + b) 2 := by
  rw [pydiv_two]
  have h2 : 2 * a / 2 ≤ (a + b) / 2 := Int.ediv_le_ediv (by norm_num) (by omega)
  rwa [Int.mul_ediv_cancel_left a (by norm_num)] at h2

/-- The halved sum of an ordered pair is at most the larger element. -/
theorem pydiv2_add_le {a b : ℤ} (h : a ≤ b) : pydiv (a + b) 2 ≤ b := by
  rw [pydiv_two]
  have h2 : (a + b) / 2 ≤ 2 * b / 2 := Int.ediv_le_ediv (by norm_num) (by omega)
  rwa [Int.mul_ediv_cancel_left b (by norm_num)] at h2

/-! List indexing helpers. -/

/-- getD on an append, inside the left part. -/
theorem getD_append_left_list {α : Type} (d : α) :
    ∀ (l1 l2 : List α) (i : ℕ), i < l1.length → (l1 ++ l2).getD i d = l1.getD i d := by
  intro l1
  induction l1 with
  | nil => intro l2 i h; exact absurd h (by simp)
  | cons a t ih =>
    intro l2 i h
    cases i with
    | zero => rfl
    | succ i => exact ih l2 i (Nat.lt_of_succ_lt_succ h)

/-- getD of an appended singleton at the length of the left part. -/
theorem getD_append_singleton {α : Type} (d x : α) :
    ∀ l : List α, (l ++ [x]).getD l.length d = x := by
  intro l
  induction l with
  | nil => rfl
  | cons a t ih => exact ih

/-- getD through map over a range. -/
theorem getD_map_range (f : ℕ → ℤ) (k i : ℕ) (h : i < k) :
    ((List.range k).map f).getD i 0 = f i := by
  rw [List.getD_eq_getElem _ _ (by simpa using h)]
  simp

/-- A list is a chain for ≤ when all adjacent getD pairs are ordered. -/
theorem chain'_le_of_getD : ∀ l : List ℤ,
    (∀ i, i + 1 < l.length → l.getD i 0 ≤ l.getD (i + 1) 0) →
    List.Chain' (· ≤ ·) l := by
  intro l
  induction l with
  | nil => intro _; exact List.chain'_nil
  | cons a t ih =>
    intro h
    cases t with
    | nil => exact List.chain'_singleton a
    | cons b t' =>
      rw [List.chain'_cons]
      refine ⟨h 0 (by simp), ih ?_⟩
      intro i hi
      exact h (i + 1) (by simp at hi ⊢; omega)

/-- In a ≤-chain the head is at most the last element, read via getD. -/
theorem chain'_le_head_getD : ∀ (t : List ℤ) (b : ℤ), List.Chain' (· ≤ ·) (b :: t) →
    b ≤ (b :: t).getD ((b :: t).length - 1) 0 := by
  intro t
  induction t with
  | nil => intro b _; exact le_refl b
  | cons c t' ih =>
    intro b hc
    rw [List.chain'_cons] at hc
    have h2 := ih c hc.2
    have hidx : (b :: c :: t').length - 1 = ((c :: t').length - 1) + 1 := by
      simp
    rw [hidx]
    exact le_trans hc.1 h2

/-! Region segmenter: structure of the boundary list. -/

/-- The midpoint list has one entry per consecutive peak pair. -/
theorem midpoints_length (peaks : List ℤ) :
    (midpoints_list peaks).length = peaks.length - 1 := by
  simp [midpoints_list]

/-- The boundary list has one more entry than the peak list. -/
theorem region_boundaries_length (peaks : List ℤ) (W : ℤ) (h : 2 ≤ peaks.length) :
    (region_boundaries peaks W).length = peaks.length + 1 := by
  simp [region_boundaries, midpoints_list]
  omega

/-- Interior boundary i + 1 is the midpoint of peaks i and i + 1. -/
theorem region_boundaries_getD_mid (peaks : List ℤ) (W : ℤ) (i : ℕ)
    (h : i < peaks.length - 1) :
    (region_boundaries peaks W).getD (i + 1) 0 =
      pydiv (peaks.getD i 0 + peaks.getD (i + 1) 0) 2 := by
  show (midpoints_list peaks ++ [right_bound peaks W]).getD i 0 = _
  rw [getD_append_left_list 0 _ _ i (by rw [midpoints_length]; omega)]
  exact getD_map_range _ _ i h

/-- The final boundary is right_bound. -/
theorem region_boundaries_getD_last (peaks : List ℤ) (W : ℤ) (h : 2 ≤ peaks.length) :
    (region_boundaries peaks W).getD peaks.length 0 = right_bound peaks W := by
  have hidx : peaks.length = (peaks.length - 1) + 1 := by omega
  rw [hidx]
  show (midpoints_list peaks ++ [right_bound peaks W]).getD (peaks.length - 1) 0 = _
  rw [show peaks.length - 1 = (midpoints_list peaks).length from (midpoints_length peaks).symm]
  exact getD_append_singleton 0 _ _

/-- Adjacent boundaries are ordered, for a strictly increasing peak list
inside [0, W). -/
theorem region_boundaries_adjacent (peaks : List ℤ) (W : ℤ)
    (hlen : 2 ≤ peaks.length)
    (hmono : ∀ i, i < peaks.length - 1 → peaks.getD i 0 < peaks.getD (i + 1) 0)
    (hrange : ∀ p ∈ peaks, 0 ≤ p ∧ p < W) :
    ∀ i, i + 1 < (region_boundaries peaks W).length →
      (region_boundaries peaks W).getD i 0 ≤ (region_boundaries peaks W).getD (i + 1) 0 := by
  have hget : ∀ j, j < peaks.length → 0 ≤ peaks.getD j 0 ∧ peaks.getD j 0 < W := by
    intro j hj
    rw [List.getD_eq_getElem _ _ hj]
    exact hrange _ (List.getElem_mem _)
  intro i hi
  rw [region_boundaries_length peaks W hlen] at hi
  by_cases h0 : i = 0
  · subst h0
    have hmid := region_boundaries_getD_mid peaks W 0 (by omega)
    simp only [Nat.zero_add] at hmid ⊢
    rw [hmid]
    show left_bound peaks ≤ _
    unfold left_bound
    have h01 := hmono 0 (by omega)
    simp only [Nat.zero_add] at h01
    have hp0 := hget 0 (by omega)
    have hp1 := hget 1 (by omega)
    have hd0 : 0 ≤ pydiv (peaks.getD 1 0 - peaks.getD 0 0) 2 := pydiv2_nonneg (by omega)
    have hm0 : peaks.getD 0 0 ≤ pydiv (peaks.getD 0 0 + peaks.getD 1 0) 2 :=
      le_pydiv2_add (by omega)
    have hnn : 0 ≤ pydiv (peaks.getD 0 0 + peaks.getD 1 0) 2 := pydiv2_nonneg (by omega)
    exact max_le hnn (by omega)
  · have hi1 : i - 1 + 1 = i := by omega
    by_cases hlast : i = peaks.length - 1
    · have hilastp : i + 1 = peaks.length := by omega
      rw [hilastp, region_boundaries_getD_last peaks W hlen]
      have hmid := region_boundaries_getD_mid peaks W (i - 1) (by omega)
      rw [hi1] at hmid
      rw [hmid]
      unfold right_bound
      have h1 := hmono (i - 1) (by omega)
      rw [hi1] at h1
      rw [show peaks.length - 1 = i from hlast.symm,
        show peaks.length - 2 = i - 1 by omega]
      have hub : pydiv (peaks.getD (i - 1) 0 + peaks.getD i 0) 2 ≤ peaks.getD i 0 :=
        pydiv2_add_le (by omega)
      have hw := hget i (by omega)
      have hd : 0 ≤ pydiv (peaks.getD i 0 - peaks.getD (i - 1) 0) 2 :=
        pydiv2_nonneg (by omega)
      exact le_min (by omega) (by omega)
    · have hmid1 := region_boundaries_getD_mid peaks W (i - 1) (by omega)
      rw [hi1] at hmid1
      have hmid2 := region_boundaries_getD_mid peaks W i (by omega)
      rw [hmid1, hmid2]
      apply pydiv2_mono
      have h1 := hmono (i - 1) (by omega)
      rw [hi1] at h1
      have h2 := hmono i (by omega)
      omega

/-- The boundary list is a nondecreasing chain. -/
theorem region_boundaries_chain (peaks : List ℤ) (W : ℤ)
    (hlen : 2 ≤ peaks.length)
    (hmono : ∀ i, i < peaks.length - 1 → peaks.getD i 0 < peaks.getD (i + 1) 0)
    (hrange : ∀ p ∈ peaks, 0 ≤ p ∧ p < W) :
    List.Chain' (· ≤ ·) (region_boundaries peaks W) :=
  chain'_le_of_getD _ (region_boundaries_adjacent peaks W hlen hmono hrange)

/-- Region count is one less than the boundary count. -/
theorem regionsOf_length {α : Type} : ∀ l : List α, (regionsOf l).length = l.length - 1
  | [] => rfl
  | [_] => rfl
  | _ :: b :: t => by
      have ih := regionsOf_length (b :: t)
      simp only [regionsOf, List.length_cons] at ih ⊢
      omega

/-- Consecutive regions share their boundary: each region ends where the
next one starts. -/
theorem regionsOf_chain {α : Type} : ∀ l : List α,
    List.Chain' (fun p q : α × α => p.2 = q.1) (regionsOf l) := by
  intro l
  induction l with
  | nil => exact List.chain'_nil
  | cons a t ih =>
    cases t with
    | nil => exact List.chain'_nil
    | cons b t' =>
      show List.Chain' _ ((a, b) :: regionsOf (b :: t'))
      rw [List.chain'_cons']
      refine ⟨?_, ih⟩
      intro y hy
      cases t' with
      | nil => cases hy
      | cons c t'' =>
        obtain rfl : (b, c) = y := Option.some.inj hy
        rfl

/-- Exact cover: for a nondecreasing boundary list the regions contain a
column z exactly once when z lies between the first and the last
boundary, and never otherwise. -/
theorem coverCount_regionsOf : ∀ l : List ℤ, List.Chain' (· ≤ ·) l → ∀ z : ℤ,
    coverCount (regionsOf l) z =
      if 2 ≤ l.length ∧ l.getD 0 0 ≤ z ∧ z < l.getD (l.length - 1) 0 then 1 else 0 := by
  intro l
  induction l with
  | nil => intro _ z; simp [coverCount, regionsOf]
  | cons a t ih =>
    intro hc z
    cases t with
    | nil => simp [coverCount, regionsOf]
    | cons b t' =>
      rw [List.chain'_cons] at hc
      have hab := hc.1
      have ihz := ih hc.2 z
      cases t' with
      | nil =>
        show coverCount [(a, b)] z = _
        have e1 : coverCount [(a, b)] z = if a ≤ z ∧ z < b then 1 else 0 := by
          unfold coverCount
          rw [List.countP_cons, List.countP_nil]
          simp [decide_eq_true_eq]
        have e2 : ([a, b] : List ℤ).getD ([a, b].length - 1) 0 = b := rfl
        have e3 : ([a, b] : List ℤ).getD 0 0 = a := rfl
        have e4 : 2 ≤ ([a, b] : List ℤ).length := by simp
        rw [e1, e2, e3]
        simp only [e4, true_and]
      | cons c t'' =>
        have hblast := chain'_le_head_getD (c :: t'') b hc.2
        have hL : (a :: b :: c :: t'').getD ((a :: b :: c :: t'').length - 1) 0 =
            (b :: c :: t'').getD ((b :: c :: t'').length - 1) 0 := by
          rw [show (a :: b :: c :: t'').length - 1 = ((b :: c :: t'').length - 1) + 1 by simp]
          rfl
        have hA : (a :: b :: c :: t'').getD 0 0 = a := rfl
        have hB : (b :: c :: t'').getD 0 0 = b := rfl
        rw [hB] at ihz
        show coverCount ((a, b) :: regionsOf (b :: c :: t'')) z = _
        unfold coverCount at ihz ⊢
        rw [List.countP_cons, ihz, hL, hA]
        simp only [decide_eq_true_eq, List.length_cons] at hblast ⊢
        split_ifs <;> omega

/-- C6: for a strictly increasing peak list of length at least 2 inside
[0, W), the segmenter produces exactly one region per peak (one more
boundary than peaks), the boundary sequence is the clamped left bound
followed by the interior midpoints and the clamped right bound, and it
is non-decreasing. -/
theorem region_boundaries_spec (peaks : List ℤ) (W : ℤ)
    (hlen : 2 ≤ peaks.length)
    (hmono : ∀ i, i < peaks.length - 1 → peaks.getD i 0 < peaks.getD (i + 1) 0)
    (hrange : ∀ p ∈ peaks, 0 ≤ p ∧ p < W) :
    (region_boundaries peaks W).length = peaks.length + 1 ∧
    (regionsOf (region_boundaries peaks W)).length = peaks.length ∧
    region_boundaries peaks W =
      left_bound peaks :: midpoints_list peaks ++ [right_bound peaks W] ∧
    List.Chain' (· ≤ ·) (region_boundaries peaks W) := by
  refine ⟨region_boundaries_length peaks W hlen, ?_, rfl,
    region_boundaries_chain peaks W hlen hmono hrange⟩
  rw [regionsOf_length, region_boundaries_length peaks W hlen]
  omega

/-- Witness for region_boundaries_spec on peaks [3, 9, 20] with W = 30. -/
theorem region_boundaries_spec_witness :
    (2 ≤ ([(3 : ℤ), 9, 20]).length ∧
      (∀ i, i < ([(3 : ℤ), 9, 20]).length - 1 →
        ([(3 : ℤ), 9, 20]).getD i 0 < ([(3 : ℤ), 9, 20]).getD (i + 1) 0) ∧
      (∀ p ∈ [(3 : ℤ), 9, 20], 0 ≤ p ∧ p < 30)) ∧
    ((region_boundaries [(3 : ℤ), 9, 20] 30).length = ([(3 : ℤ), 9, 20]).length + 1 ∧
      (regionsOf (region_boundaries [(3 : ℤ), 9, 20] 30)).length = ([(3 : ℤ), 9, 20]).length ∧
      region_boundaries [(3 : ℤ), 9, 20] 30 =
        left_bound [(3 : ℤ), 9, 20] :: midpoints_list [(3 : ℤ), 9, 20] ++
          [right_bound [(3 : ℤ), 9, 20] 30] ∧
      List.Chain' (· ≤ ·) (region_boundaries [(3 : ℤ), 9, 20] 30)) :=
  ⟨⟨by decide, by decide, by decide⟩,
    region_boundaries_spec [(3 : ℤ), 9, 20] 30 (by decide) (by decide) (by decide)⟩

/-- C1 counterexample: the valid peak input [10, 12] with width 20 (two
strictly increasing peaks inside [0, 20)) yields boundaries [9, 11, 13]:
the first region starts at 9, not 0, the last region ends at 13, not 20,
and column 5 of [0, 20) lies in no region, so the regions do not cover
[0, 20). -/
theorem region_cover_cex :
    region_boundaries [(10 : ℤ), 12] 20 = [9, 11, 13] ∧
    regionsOf (region_boundaries [(10 : ℤ), 12] 20) = [(9, 11), (11, 13)] ∧
    coverCount (regionsOf (region_boundaries [(10 : ℤ), 12] 20)) 5 = 0 ∧
    (9 : ℤ) ≠ 0 ∧ (13 : ℤ) ≠ 20 := by
  decide

/-- C1 amended: for a strictly increasing peak sequence of length at
least 2 with peaks in [0, W), the segmenter returns an ordered sequence
of half-open regions that partitions [left_bound, right_bound), a
subinterval of [0, W): the first region starts at
max(0, peak0 - (peak1 - peak0)/2), the last region ends at
min(W, last + gap/2), consecutive regions share a boundary, every column
between those two extreme boundaries lies in exactly one region and
every other column in none, and all boundaries lie in [0, W].  Coverage
of exactly [0, W) does not hold in general. -/
theorem region_cover_amended (peaks : List ℤ) (W : ℤ)
    (hlen : 2 ≤ peaks.length)
    (hmono : ∀ i, i < peaks.length - 1 → peaks.getD i 0 < peaks.getD (i + 1) 0)
    (hrange : ∀ p ∈ peaks, 0 ≤ p ∧ p < W) :
    (region_boundaries peaks W).getD 0 0 = left_bound peaks ∧
    (region_boundaries peaks W).getD peaks.length 0 = right_bound peaks W ∧
    (∀ b ∈ region_boundaries peaks W, 0 ≤ b ∧ b ≤ W) ∧
    List.Chain' (fun p q : ℤ × ℤ => p.2 = q.1) (regionsOf (region_boundaries peaks W)) ∧
    ∀ z : ℤ, coverCount (regionsOf (region_boundaries peaks W)) z =
      if left_bound peaks ≤ z ∧ z < right_bound peaks W then 1 else 0 := by
  have hget : ∀ j, j < peaks.length → 0 ≤ peaks.getD j 0 ∧ peaks.getD j 0 < W := by
    intro j hj
    rw [List.getD_eq_getElem _ _ hj]
    exact hrange _ (List.getElem_mem _)
  refine ⟨rfl, region_boundaries_getD_last peaks W hlen, ?_, regionsOf_chain _, ?_⟩
  · intro b hb
    rcases List.mem_cons.mp hb with rfl | hb2
    · have hp0 := hget 0 (by omega)
      have hp1 := hget 1 (by omega)
      have h01 := hmono 0 (by omega)
      simp only [Nat.zero_add] at h01
      have hd0 : 0 ≤ pydiv (peaks.getD 1 0 - peaks.getD 0 0) 2 := pydiv2_nonneg (by omega)
      unfold left_bound
      exact ⟨le_max_left 0 _, max_le (by omega) (by omega)⟩
    · rcases List.mem_append.mp hb2 with hmid | hlast2
      · rcases List.mem_map.mp hmid with ⟨i, hi, rfl⟩
        rw [List.mem_range] at hi
        have hpi := hget i (by omega)
        have hpi1 := hget (i + 1) (by omega)
        have hii := hmono i (by omega)
        refine ⟨pydiv2_nonneg (by omega), ?_⟩
        have := pydiv2_add_le (le_of_lt hii)
        omega
      · rw [List.mem_singleton] at hlast2
        subst hlast2
        unfold right_bound
        have hplast := hget (peaks.length - 1) (by omega)
        have hplast2 := hget (peaks.length - 2) (by omega)
        have hmlast := hmono (peaks.length - 2) (by omega)
        rw [show peaks.length - 2 + 1 = peaks.length - 1 by omega] at hmlast
        have hd : 0 ≤ pydiv
            (peaks.getD (peaks.length - 1) 0 - peaks.getD (peaks.length - 2) 0) 2 :=
          pydiv2_nonneg (by omega)
        exact ⟨le_min (by omega) (by omega), min_le_left _ _⟩
  · intro z
    rw [coverCount_regionsOf _ (region_boundaries_chain peaks W hlen hmono hrange) z]
    rw [region_boundaries_length peaks W hlen]
    rw [show peaks.length + 1 - 1 = peaks.length by omega]
    rw [region_boundaries_getD_last peaks W hlen]
    rw [show (region_boundaries peaks W).getD 0 0 = left_bound peaks from rfl]
    simp [show 2 ≤ peaks.length + 1 by omega]

/-- Witness for region_cover_amended on peaks [10, 12] with W = 20. -/
theorem region_cover_amended_witness :
    (2 ≤ ([(10 : ℤ), 12]).length ∧
      (∀ i, i < ([(10 : ℤ), 12]).length - 1 →
        ([(10 : ℤ), 12]).getD i 0 < ([(10 : ℤ), 12]).getD (i + 1) 0) ∧
      (∀ p ∈ [(10 : ℤ), 12], 0 ≤ p ∧ p < 20)) ∧
    ((region_boundaries [(10 : ℤ), 12] 20).getD 0 0 = left_bound [(10 : ℤ), 12] ∧
      (region_boundaries [(10 : ℤ), 12] 20).getD ([(10 : ℤ), 12]).length 0 =
        right_bound [(10 : ℤ), 12] 20 ∧
      (∀ b ∈ region_boundaries [(10 : ℤ), 12] 20, 0 ≤ b ∧ b ≤ 20) ∧
      List.Chain' (fun p q : ℤ × ℤ => p.2 = q.1)
        (regionsOf (region_boundaries [(10 : ℤ), 12] 20)) ∧
      ∀ z : ℤ, coverCount (regionsOf (region_boundaries [(10 : ℤ), 12] 20)) z =
        if left_bound [(10 : ℤ), 12] ≤ z ∧ z < right_bound [(10 : ℤ), 12] 20
        then 1 else 0) :=
  ⟨⟨by decide, by decide, by decide⟩,
    region_cover_amended [(10 : ℤ), 12] 20 (by decide) (by decide) (by decide)⟩

end Pig
